import Mathlib

/-
  Verification development for the wordlist generator in src/main.go.

  The program enumerates all strings of length 1..4 over a fixed 64-symbol
  alphabet, writing them in order to numbered output files, persisting a
  resume cursor after each file and shelling out to version control every
  20 files.  Machine integers (Go int/int64) are modelled as Int; none of
  the arithmetic in the program can overflow 64 bits (the largest value is
  the total count 17043520), so plain Int arithmetic is faithful.  Go's
  truncated division and remainder are modelled with Int.tdiv / Int.tmod.
  Code paths that panic at runtime (out-of-range slice or array indexing)
  are modelled with Option, none standing for the panic.
-/

set_option maxHeartbeats 1000000

/-- Per-file entry quota (src/main.go line 14). -/
def entriesPerFile : Nat := 2000000

/-- Generation batch size (src/main.go line 15). -/
def batchSize : Nat := 250000

/-- Maximum generated string length (src/main.go line 16). -/
def maxLength : Nat := 4

/-- Commit-and-push interval in completed files (src/main.go line 17). -/
def commitEvery : Nat := 20

/-- The 64-symbol alphabet (src/main.go line 22). -/
def charset : List Char := "abcdefghijklmnopqrstuvwxyzABCDEFGHIJKLMNOPQRSTUVWXYZ0123456789_.".toList

/-- Alphabet size, N = len(charset) (src/main.go line 23). -/
def N : Nat := charset.length

/-- The cumulative table filled by initTotals (src/main.go lines 29-37):
    cum 0 = 0 and cum l = cum (l-1) + N^l for l = 1..maxLength; entries of
    the Go array beyond maxLength stay 0. -/
def cum : Nat → Int
  | 0 => 0
  | l + 1 => if l + 1 ≤ maxLength then cum l + (N : Int) ^ (l + 1) else 0

/-- total = cum maxLength, set at the end of initTotals (src/main.go line 36). -/
def total : Int := cum maxLength

/-- The length-finding loop at the start of getCombo (src/main.go lines 41-47),
    unrolled for maxLength = 4.  When no break fires, Go leaves L at its zero
    value, which the caller turns into an out-of-range array access. -/
def findLength (pos : Int) : Nat :=
  if pos < cum 1 then 1
  else if pos < cum 2 then 2
  else if pos < cum 3 then 3
  else if pos < cum 4 then 4
  else 0

/-- Go slice indexing charset[i] (src/main.go line 53): panics (none) when
    i < 0 or i ≥ len(charset). -/
def charAt (i : Int) : Option Char :=
  if i < 0 then none else charset.get? i.toNat

/-- The digit-building loop of getCombo (src/main.go lines 51-55): for j from
    L-1 down to 0, s[j] = charset[offset % N], offset /= N.  Go's truncated
    % and / on int64 are Int.tmod and Int.tdiv. -/
def buildCombo : Nat → Int → Option (List Char)
  | 0, _ => some []
  | l + 1, offset => do
      let c ← charAt (offset.tmod (N : Int))
      let rest ← buildCombo l (offset.tdiv (N : Int))
      pure (rest ++ [c])

/-- getCombo (src/main.go lines 39-57).  When the length loop never breaks,
    Go evaluates cum[L-1] with L = 0 and panics (none). -/
def getCombo (pos : Int) : Option String :=
  match findLength pos with
  | 0 => none
  | l + 1 => (buildCombo (l + 1) (pos - cum l)).map String.mk

/-- Whitespace as trimmed by Go strings.TrimSpace (ASCII space classes;
    the exotic Unicode spaces never occur in the inputs of interest). -/
def isSpaceGo (c : Char) : Bool :=
  c == ' ' || c == '\t' || c == '\n' || c == '\x0b' || c == '\x0c' || c == '\r'

/-- Model of Go strings.TrimSpace (src/main.go line 100). -/
def trimSpace (s : String) : String :=
  String.mk (((s.data.dropWhile isSpaceGo).reverse.dropWhile isSpaceGo).reverse)

/-- Model of Go strconv.ParseInt(s, 10, 64) as called at src/main.go line 100:
    returns the parsed value and whether err == nil.  On a syntax error
    (empty string, bare sign, or any non-digit) Go returns value 0 with an
    error; on range overflow it returns the clamped int64 bound with an
    error. -/
def parseInt64 (s : String) : Int × Bool :=
  let sign : Bool × List Char :=
    match s.data with
    | '-' :: rest => (true, rest)
    | '+' :: rest => (false, rest)
    | l => (false, l)
  if sign.2 = [] ∨ ¬ sign.2.all Char.isDigit then (0, false)
  else
    let n : Nat := sign.2.foldl (fun a c => a * 10 + (c.toNat - 48)) 0
    if sign.1 then
      if (2 : Int) ^ 63 < (n : Int) then (-(2 ^ 63), false) else (-(n : Int), true)
    else
      if (2 : Int) ^ 63 - 1 < (n : Int) then ((2 : Int) ^ 63 - 1, false) else ((n : Int), true)

/-- The startup cursor computation (src/main.go lines 96-106): the argument
    is the result of os.ReadFile on state.txt (none = read error).  On a
    successful read, main assigns currentPos from ParseInt DISCARDING the
    error value, then increments; on a read error currentPos keeps its zero
    value. -/
def startPos (stateRead : Option String) : Int :=
  match stateRead with
  | some data => (parseInt64 (trimSpace data)).1 + 1
  | none => 0

/-- The completed-file counter recomputed on startup (src/main.go line 112):
    filesCompleted = int(currentPos / entriesPerFile). -/
def filesCompletedInit (p : Int) : Nat := (p.tdiv (entriesPerFile : Int)).toNat

/-- Pure base-N digit expansion used to reason about buildCombo on
    non-negative offsets: the L-character big-endian base-N numeral of off,
    with the alphabet as digits. -/
def encode : Nat → Nat → List Char
  | 0, _ => []
  | l + 1, off => encode l (off / N) ++ [charset.get ⟨off % N, Nat.mod_lt _ (by decide)⟩]

/-- The list of indices p, p+1, ..., p+n-1 in order, as written by the inner
    loop at src/main.go lines 141-143. -/
def posRange (p : Int) (n : Nat) : List Int := (List.range n).map fun k : Nat => p + (k : Int)

/-- The batchEnd clamped to the remaining file quota (src/main.go lines
    133-136): min(currentPos + batchSize, currentPos + (remainingInFile -
    written)). -/
def batchCap (currentPos : Int) (remainingInFile written : Nat) : Int :=
  if currentPos + ((remainingInFile : Int) - (written : Int)) < currentPos + (batchSize : Int) then
    currentPos + ((remainingInFile : Int) - (written : Int))
  else currentPos + (batchSize : Int)

/-- The final batchEnd, further clamped to total (src/main.go lines 137-139). -/
def batchEndFor (currentPos : Int) (remainingInFile written : Nat) : Int :=
  if total < batchCap currentPos remainingInFile written then total
  else batchCap currentPos remainingInFile written

/-- The per-file batch loop (src/main.go lines 131-175): the list of indices
    whose strings are written to the current file, in order.  Each pass
    emits the indices from currentPos up to batchEnd, then advances
    currentPos and written by the emitted count.  The 0 < count guard only
    excludes states the program never reaches (with count ≤ 0 the Go loop
    would spin forever making no progress). -/
def batchLoop (currentPos : Int) (remainingInFile written : Nat) : List Int :=
  if _h : written < remainingInFile then
    if _h2 : 0 < batchEndFor currentPos remainingInFile written - currentPos then
      posRange currentPos (batchEndFor currentPos remainingInFile written - currentPos).toNat
        ++ batchLoop (batchEndFor currentPos remainingInFile written) remainingInFile
            (written + (batchEndFor currentPos remainingInFile written - currentPos).toNat)
    else []
  else []
termination_by remainingInFile - written
decreasing_by omega

/-- fileNum for the file opened at cursor p (src/main.go line 117):
    int(currentPos / entriesPerFile) + 1, with Go's truncated division. -/
def fileForPos (p : Int) : Int := p.tdiv (entriesPerFile : Int) + 1

/-- remainingInFile for the file opened at cursor p (src/main.go lines
    126-129): entriesPerFile, or the tail count when fewer than
    entriesPerFile indices remain below total. -/
def remainingFor (p : Int) : Nat :=
  if total < p + (entriesPerFile : Int) then (total - p).toNat else entriesPerFile

/-- The outer per-file loop of main (src/main.go lines 116-190) started at
    cursor p: for each output file, its file number and the indices written
    to it, in creation order.  After each file the cursor has advanced by
    the number of entries written.  The length guard only excludes states
    the program never reaches (the batch loop always emits at least one
    entry when p < total). -/
def runFiles (p : Int) : List (Int × List Int) :=
  if _h : p < total then
    if _h2 : 0 < (batchLoop p (remainingFor p) 0).length then
      (fileForPos p, batchLoop p (remainingFor p) 0)
        :: runFiles (p + ((batchLoop p (remainingFor p) 0).length : Int))
    else [(fileForPos p, batchLoop p (remainingFor p) 0)]
  else []
termination_by (total - p).toNat
decreasing_by omega

/-- Observable events of one run of main, in program order. -/
inductive Ev where
  | create : Int → Ev
  | writeLine : Int → Ev
  | closeFile : Int → Ev
  | persist : Int → Ev
  | checkpoint : Nat → Ev
  deriving DecidableEq

/-- The event trace of the main loop from cursor p with completed-file
    counter filesCompleted (src/main.go lines 116-195), in program order:
    per file, os.Create (line 120), the entry writes (line 142), flush and
    close (lines 177-178), the state write of currentPos - 1 (line 181),
    then, after the counter increment, the commit action when the counter
    is a multiple of commitEvery (lines 187-189); after the loop, a final
    commit action when the counter is not a multiple (lines 193-195).
    Progress reporting (lines 150-174) is pure console output and is not an
    event.  The length guard only excludes unreachable states. -/
def runTrace (p : Int) (filesCompleted : Nat) : List Ev :=
  if _h : p < total then
    if _h2 : 0 < (batchLoop p (remainingFor p) 0).length then
      Ev.create (fileForPos p)
        :: ((batchLoop p (remainingFor p) 0).map Ev.writeLine
          ++ Ev.closeFile (fileForPos p)
          :: Ev.persist (p + ((batchLoop p (remainingFor p) 0).length : Int) - 1)
          :: ((if (filesCompleted + 1) % commitEvery = 0 then
                [Ev.checkpoint (filesCompleted + 1)] else [])
            ++ runTrace (p + ((batchLoop p (remainingFor p) 0).length : Int))
                (filesCompleted + 1)))
    else []
  else if filesCompleted % commitEvery ≠ 0 then [Ev.checkpoint filesCompleted] else []
termination_by (total - p).toNat
decreasing_by omega

/-- The index carried by the last write event of a trace prefix. -/
def lastWrite (l : List Ev) : Option Int :=
  l.reverse.findSome? fun e => match e with | Ev.writeLine pos => some pos | _ => none

/-- The completed-file counts at which the commit action fires, in order. -/
def ckVals (l : List Ev) : List Nat :=
  l.filterMap fun e => match e with | Ev.checkpoint k => some k | _ => none

/-- Number of files completed (closed) in a trace. -/
def closedFiles (l : List Ev) : Nat :=
  l.countP fun e => match e with | Ev.closeFile _ => true | _ => false

def isPersist (e : Ev) : Bool := match e with | Ev.persist _ => true | _ => false

def isCheckpoint (e : Ev) : Bool := match e with | Ev.checkpoint _ => true | _ => false

/-- Buffered-writer state for the write-failure model: the entries that made
    it to the file, and bufio's sticky error flag. -/
structure WriterState where
  durable : List Int
  failed : Bool

/-- Model of bufio WriteString as called at src/main.go line 142, with an
    oracle saying which entry writes fail at the underlying file: after a
    first failure the writer keeps a sticky error and drops every later
    write, returning the error; main discards that return value. -/
def writeEntry (fail : Int → Bool) (st : WriterState) (pos : Int) : WriterState × Bool :=
  if st.failed then (st, true)
  else if fail pos then ({ durable := st.durable, failed := true }, true)
  else ({ durable := st.durable ++ [pos], failed := false }, false)

/-- All entry writes of one file through one buffered writer; the error
    component of every call is discarded, as in the source. -/
def writeBatchE (fail : Int → Bool) (st : WriterState) (poss : List Int) : WriterState :=
  poss.foldl (fun s pos => (writeEntry fail s pos).1) st

/-- The main loop with the write-failure oracle threaded through the
    buffered writer: per file, its number, the durably written indices and
    the indices the loop attempted.  No result of WriteString or Flush is
    inspected by the source (lines 142 and 177), so the control flow
    cannot depend on the oracle. -/
def runFilesE (fail : Int → Bool) (p : Int) : List (Int × List Int × List Int) :=
  if _h : p < total then
    if _h2 : 0 < (batchLoop p (remainingFor p) 0).length then
      (fileForPos p,
        (writeBatchE fail ⟨[], false⟩ (batchLoop p (remainingFor p) 0)).durable,
        batchLoop p (remainingFor p) 0)
        :: runFilesE fail (p + ((batchLoop p (remainingFor p) 0).length : Int))
    else [(fileForPos p,
        (writeBatchE fail ⟨[], false⟩ (batchLoop p (remainingFor p) 0)).durable,
        batchLoop p (remainingFor p) 0)]
  else []
termination_by (total - p).toNat
decreasing_by omega

/-! Basic facts about the alphabet and the cumulative table. -/

lemma N_eq : N = 64 := by decide

lemma N_pos : 0 < N := by decide

lemma charset_nodup : charset.Nodup := by decide

lemma cum1 : cum 1 = 64 := by decide

lemma cum2 : cum 2 = 4160 := by decide

lemma cum3 : cum 3 = 266304 := by decide

lemma cum4 : cum 4 = 17043520 := by decide

lemma total_eq : total = 17043520 := by decide

/-! Properties of the pure digit expansion and its agreement with the
    digit-building loop of getCombo. -/

lemma encode_length (l : Nat) : ∀ off, (encode l off).length = l := by
  induction l with
  | zero => intro off; rfl
  | succ l ih => intro off; simp [encode, ih]

lemma encode_mem (l : Nat) : ∀ off, ∀ c ∈ encode l off, c ∈ charset := by
  induction l with
  | zero => intro off c hc; simp [encode] at hc
  | succ l ih =>
      intro off c hc
      simp only [encode, List.mem_append, List.mem_singleton] at hc
      rcases hc with hc | hc
      · exact ih _ c hc
      · subst hc; exact List.get_mem _ _ _

lemma encode_inj (l : Nat) : ∀ off₁ off₂, off₁ < N ^ l → off₂ < N ^ l →
    encode l off₁ = encode l off₂ → off₁ = off₂ := by
  induction l with
  | zero =>
      intro o1 o2 h1 h2 _
      simp only [pow_zero] at h1 h2
      omega
  | succ l ih =>
      intro o1 o2 h1 h2 heq
      simp only [encode] at heq
      have hlen : (encode l (o1 / N)).length = (encode l (o2 / N)).length := by
        simp [encode_length]
      obtain ⟨h3, h4⟩ := List.append_inj heq hlen
      have h4' : charset.get ⟨o1 % N, Nat.mod_lt _ (by decide)⟩
          = charset.get ⟨o2 % N, Nat.mod_lt _ (by decide)⟩ := by
        simpa using h4
      have hmod : o1 % N = o2 % N := by
        have := (charset_nodup.get_inj_iff).mp h4'
        simpa using congrArg Fin.val this
      rw [pow_succ'] at h1 h2
      have hdiv := ih (o1 / N) (o2 / N) (Nat.div_lt_of_lt_mul h1) (Nat.div_lt_of_lt_mul h2) h3
      rw [N_eq] at hmod hdiv
      omega

lemma encode_surj (l : Nat) : ∀ cs : List Char, cs.length = l → (∀ c ∈ cs, c ∈ charset) →
    ∃ off, off < N ^ l ∧ encode l off = cs := by
  induction l with
  | zero =>
      intro cs hlen _
      refine ⟨0, by simp, ?_⟩
      rw [List.length_eq_zero.mp hlen]; rfl
  | succ l ih =>
      intro cs hlen hmem
      have hne : cs ≠ [] := by intro h; subst h; simp at hlen
      obtain ⟨i, hget⟩ := List.mem_iff_get.mp (hmem _ (List.getLast_mem hne))
      obtain ⟨off', hlt', henc'⟩ := ih cs.dropLast
        (by rw [List.length_dropLast, hlen]; rfl)
        (fun c hc => hmem c (List.dropLast_subset _ hc))
      have hiN : i.val < N := i.isLt
      refine ⟨off' * N + i.val, ?_, ?_⟩
      · have step1 : off' * N + i.val < (off' + 1) * N := by
          have : (off' + 1) * N = off' * N + N := by ring
          omega
        have step2 : (off' + 1) * N ≤ N ^ l * N := Nat.mul_le_mul_right _ hlt'
        calc off' * N + i.val < (off' + 1) * N := step1
          _ ≤ N ^ l * N := step2
          _ = N ^ (l + 1) := (pow_succ _ _).symm
      · have hdiv : (off' * N + i.val) / N = off' := by
          rw [Nat.mul_comm off' N, Nat.mul_add_div N_pos, Nat.div_eq_of_lt hiN]
          omega
        have hmod : (off' * N + i.val) % N = i.val := by
          rw [Nat.mul_comm off' N, Nat.mul_add_mod, Nat.mod_eq_of_lt hiN]
        simp only [encode, hdiv, henc']
        have : charset.get ⟨(off' * N + i.val) % N, Nat.mod_lt _ (by decide)⟩
            = cs.getLast hne := by
          rw [← hget]
          congr 1
          exact Fin.ext hmod
        rw [this, List.dropLast_append_getLast hne]

lemma buildCombo_nonneg (l : Nat) : ∀ m : Nat, buildCombo l (m : Int) = some (encode l m) := by
  induction l with
  | zero => intro m; rfl
  | succ l ih =>
      intro m
      have htmod : (m : Int).tmod (N : Int) = ((m % N : Nat) : Int) := (Int.ofNat_tmod m N).symm
      have htdiv : (m : Int).tdiv (N : Int) = ((m / N : Nat) : Int) := (Int.ofNat_tdiv m N).symm
      have hchar : charAt ((m % N : Nat) : Int)
          = some (charset.get ⟨m % N, Nat.mod_lt _ (by decide)⟩) := by
        simp only [charAt]
        rw [if_neg (not_lt.mpr (Int.natCast_nonneg _)), Int.toNat_natCast]
        exact List.get?_eq_get _
      simp only [buildCombo, htmod, htdiv, ih, hchar, encode, Option.bind_eq_bind,
        Option.some_bind]
      rfl

lemma findLength_eq (l : Nat) (h1 : 1 ≤ l) (h4 : l ≤ 4) (pos : Int)
    (hlo : cum (l - 1) ≤ pos) (hhi : pos < cum l) : findLength pos = l := by
  have c0 : cum 0 = 0 := rfl
  have c1 := cum1
  have c2 := cum2
  have c3 := cum3
  have c4 := cum4
  rcases (show l = 1 ∨ l = 2 ∨ l = 3 ∨ l = 4 by omega) with rfl | rfl | rfl | rfl <;>
    norm_num at hlo <;> simp only [findLength] <;> split_ifs <;> omega

lemma cum_step (l : Nat) (h1 : 1 ≤ l) (h4 : l ≤ 4) :
    cum l = cum (l - 1) + (N : Int) ^ l := by
  interval_cases l <;> decide

lemma getCombo_block (l : Nat) (h1 : 1 ≤ l) (h4 : l ≤ 4) (pos : Int)
    (hlo : cum (l - 1) ≤ pos) (hhi : pos < cum l) :
    getCombo pos = some (String.mk (encode l (pos - cum (l - 1)).toNat)) := by
  have hfl := findLength_eq l h1 h4 pos hlo hhi
  obtain ⟨l', rfl⟩ : ∃ l', l = l' + 1 := ⟨l - 1, by omega⟩
  simp only [Nat.add_sub_cancel] at hlo ⊢
  have hnn : 0 ≤ pos - cum l' := by omega
  have hcast : pos - cum l' = (((pos - cum l').toNat : Nat) : Int) :=
    (Int.toNat_of_nonneg hnn).symm
  simp only [getCombo, hfl]
  rw [hcast, buildCombo_nonneg]
  rfl

lemma block_offset_lt (l : Nat) (h1 : 1 ≤ l) (h4 : l ≤ 4) (pos : Int)
    (hlo : cum (l - 1) ≤ pos) (hhi : pos < cum l) :
    (pos - cum (l - 1)).toNat < N ^ l := by
  have hc := cum_step l h1 h4
  have hlt : pos - cum (l - 1) < (N : Int) ^ l := by omega
  have hnn : 0 ≤ pos - cum (l - 1) := by omega
  rw [← Int.toNat_of_nonneg hnn] at hlt
  have : ((N : Int) : Int) ^ l = ((N ^ l : Nat) : Int) := by push_cast; ring
  rw [this] at hlt
  exact_mod_cast hlt

lemma block_exists (pos : Int) (h0 : 0 ≤ pos) (ht : pos < total) :
    ∃ l, 1 ≤ l ∧ l ≤ 4 ∧ cum (l - 1) ≤ pos ∧ pos < cum l := by
  have htot : total = cum 4 := rfl
  rw [htot] at ht
  have c1 := cum1
  have c2 := cum2
  have c3 := cum3
  have c4 := cum4
  by_cases a : pos < cum 1
  · exact ⟨1, le_rfl, by omega, by simpa [cum] using h0, a⟩
  · by_cases b : pos < cum 2
    · exact ⟨2, by omega, by omega, by norm_num; omega, b⟩
    · by_cases c : pos < cum 3
      · exact ⟨3, by omega, by omega, by norm_num; omega, c⟩
      · exact ⟨4, by omega, by omega, by norm_num; omega, ht⟩

lemma cum_nonneg (l : Nat) (h : l ≤ 4) : 0 ≤ cum l := by
  interval_cases l <;> decide

lemma cum_le_total (l : Nat) (h : l ≤ 4) : cum l ≤ total := by
  interval_cases l <;> decide

/-- Claim C1: for the fixed 64-symbol alphabet and maximum length 4,
    getCombo is a bijection between the index range and the strings of
    length 1..4 over the alphabet: distinct indices in the range map to
    distinct strings, and every such string is the image of exactly one
    index in the range. -/
theorem C1_getCombo_bijective :
    (∀ i j : Int, 0 ≤ i → i < total → 0 ≤ j → j < total → i ≠ j →
      getCombo i ≠ getCombo j)
    ∧ ∀ s : String, 1 ≤ s.data.length → s.data.length ≤ maxLength →
        (∀ c ∈ s.data, c ∈ charset) →
        ∃! i : Int, (0 ≤ i ∧ i < total) ∧ getCombo i = some s := by
  constructor
  · intro i j hi0 hit hj0 hjt hne heq
    obtain ⟨li, hli1, hli4, hilo, hihi⟩ := block_exists i hi0 hit
    obtain ⟨lj, hlj1, hlj4, hjlo, hjhi⟩ := block_exists j hj0 hjt
    rw [getCombo_block li hli1 hli4 i hilo hihi,
      getCombo_block lj hlj1 hlj4 j hjlo hjhi] at heq
    have henc : encode li (i - cum (li - 1)).toNat = encode lj (j - cum (lj - 1)).toNat := by
      simpa using congrArg String.data (Option.some.inj heq)
    have hll : li = lj := by
      have h1 := encode_length li (i - cum (li - 1)).toNat
      have h2 := encode_length lj (j - cum (lj - 1)).toNat
      rw [henc] at h1
      omega
    subst hll
    have hoff := encode_inj li _ _
      (block_offset_lt li hli1 hli4 i hilo hihi)
      (block_offset_lt li hlj1 hlj4 j hjlo hjhi) henc
    exact hne (by omega)
  · intro s hs1 hs4 hmem
    have hs4' : s.data.length ≤ 4 := hs4
    obtain ⟨off, hofflt, henc⟩ := encode_surj s.data.length s.data rfl hmem
    have hcl : cum s.data.length = cum (s.data.length - 1) + (N : Int) ^ s.data.length :=
      cum_step s.data.length hs1 hs4'
    have hoffI : (off : Int) < (N : Int) ^ s.data.length := by
      have : ((off : Nat) : Int) < ((N ^ s.data.length : Nat) : Int) := by exact_mod_cast hofflt
      simpa [Nat.cast_pow] using this
    have hc0 : 0 ≤ cum (s.data.length - 1) := cum_nonneg _ (by omega)
    have hct : cum s.data.length ≤ total := cum_le_total _ hs4'
    have hoffnn : (0 : Int) ≤ (off : Int) := Int.natCast_nonneg _
    refine ⟨cum (s.data.length - 1) + (off : Int), ⟨⟨by omega, by omega⟩, ?_⟩, ?_⟩
    · rw [getCombo_block s.data.length hs1 hs4' _ (by omega) (by omega)]
      have : (cum (s.data.length - 1) + (off : Int) - cum (s.data.length - 1)).toNat = off := by
        omega
      rw [this, henc]
    · rintro j ⟨⟨hj0, hjt⟩, hjeq⟩
      obtain ⟨lj, hlj1, hlj4, hjlo, hjhi⟩ := block_exists j hj0 hjt
      rw [getCombo_block lj hlj1 hlj4 j hjlo hjhi] at hjeq
      have henc' : encode lj (j - cum (lj - 1)).toNat = s.data := by
        simpa using congrArg String.data (Option.some.inj hjeq)
      have hll : lj = s.data.length := by
        have h1 := encode_length lj (j - cum (lj - 1)).toNat
        rw [henc'] at h1
        omega
      subst hll
      have hoffj := encode_inj s.data.length _ _
        (block_offset_lt s.data.length hlj1 hlj4 j hjlo hjhi)
        hofflt (henc'.trans henc.symm)
      omega

/-- Witness for C1: indices 0 and 1 are distinct in range and map to
    distinct strings, and the string "a" has exactly one preimage. -/
theorem C1_witness :
    getCombo 0 ≠ getCombo 1
    ∧ ∃! i : Int, (0 ≤ i ∧ i < total) ∧ getCombo i = some ("a") := by
  constructor
  · exact C1_getCombo_bijective.1 0 1 (by decide) (by decide) (by decide) (by decide)
      (by decide)
  · exact C1_getCombo_bijective.2 ("a") (by decide) (by decide) (by decide)

/-- Claim C2 (the code contradicts it at the failing input): a missing state
    file starts generation at index 0, but a present unparseable state file
    (content "x") starts it at index 1, because main discards the error of
    strconv.ParseInt (which returns value 0) and then increments; a
    parseable value 41 resumes at 42. -/
theorem C2_startPos_eval :
    startPos none = 0 ∧ startPos (some ("x")) = 1 ∧ startPos (some ("41")) = 42 := by
  decide

/-- Claim C3 (the code contradicts it at the failing input): getCombo has no
    explicit range check.  Indices at or above total and most negative
    indices end in a Go panic (modelled none), but a negative multiple of
    64 such as -64 is silently wrapped: Go's truncated remainder gives
    offset % 64 = 0, so getCombo (-64) returns "a" instead of failing. -/
theorem C3_getCombo_eval :
    getCombo (-64) = some ("a") ∧ getCombo (-1) = none ∧ getCombo total = none := by
  decide

/-- Claim C5: total is the sum of N^l for l = 1..4, equal to
    64 + 4096 + 262144 + 16777216 = 17043520, and the cumulative table has
    cum 0 = 0 and steps cum l = cum (l-1) + N^l, strictly increasing. -/
theorem C5_totals :
    total = (N : Int) ^ 1 + (N : Int) ^ 2 + (N : Int) ^ 3 + (N : Int) ^ 4
    ∧ total = 64 + 4096 + 262144 + 16777216
    ∧ total = 17043520
    ∧ cum 0 = 0
    ∧ cum 1 = cum 0 + (N : Int) ^ 1 ∧ cum 0 < cum 1
    ∧ cum 2 = cum 1 + (N : Int) ^ 2 ∧ cum 1 < cum 2
    ∧ cum 3 = cum 2 + (N : Int) ^ 3 ∧ cum 2 < cum 3
    ∧ cum 4 = cum 3 + (N : Int) ^ 4 ∧ cum 3 < cum 4 := by
  decide

/-- Claim C6: index 0 maps to the alphabet's first symbol "a", index
    cum 1 - 1 = 63 maps to the alphabet's last symbol ".", and index
    cum 1 = 64 maps to "aa", the first symbol twice. -/
theorem C6_boundaries :
    charset.head? = some 'a' ∧ charset.getLast? = some '.'
    ∧ getCombo 0 = some ("a")
    ∧ cum 1 - 1 = 63 ∧ getCombo (cum 1 - 1) = some (".")
    ∧ cum 1 = 64 ∧ getCombo (cum 1) = some ("aa") := by
  decide

/-! Closed form of the batch loop and of the per-file loop. -/

lemma posRange_length (p : Int) (n : Nat) : (posRange p n).length = n := by
  simp [posRange]

lemma posRange_append (p : Int) (a b : Nat) :
    posRange p a ++ posRange (p + (a : Int)) b = posRange p (a + b) := by
  simp only [posRange]
  rw [List.range_add, List.map_append, List.map_map]
  refine congrArg₂ _ rfl ?_
  apply List.map_congr_left
  intro k _
  simp only [Function.comp_apply]
  push_cast
  ring

lemma batchLoop_eq (fuel : Nat) : ∀ (p : Int) (remaining written : Nat),
    remaining - written ≤ fuel → written ≤ remaining →
    p + ((remaining : Int) - (written : Int)) ≤ total →
    batchLoop p remaining written = posRange p (remaining - written) := by
  induction fuel with
  | zero =>
      intro p r w hf hw hb
      rw [batchLoop, dif_neg (by omega), show r - w = 0 by omega]
      rfl
  | succ fuel ih =>
      intro p r w hf hw hb
      by_cases hlt : w < r
      · have hBS : (1 : Int) ≤ (batchSize : Int) := by norm_num [batchSize]
        have hcap_le : batchCap p r w ≤ p + ((r : Int) - (w : Int)) := by
          simp only [batchCap]
          split_ifs <;> omega
        have hcap_pos : p < batchCap p r w := by
          simp only [batchCap]
          split_ifs <;> omega
        have hbe : batchEndFor p r w = batchCap p r w := by
          simp only [batchEndFor]
          rw [if_neg (by omega)]
        set c : Int := batchEndFor p r w - p with hc
        have hcpos : 0 < c := by omega
        have hc_le : c ≤ (r : Int) - (w : Int) := by omega
        rw [batchLoop, dif_pos hlt, dif_pos hcpos]
        have hbp : batchEndFor p r w = p + (c.toNat : Int) := by omega
        have recur := ih (batchEndFor p r w) r (w + c.toNat)
          (by omega) (by omega) (by rw [hbp]; push_cast; omega)
        rw [recur, hbp, show r - (w + c.toNat) = (r - w) - c.toNat by omega,
          show p + (c.toNat : Int) - p = (c.toNat : Int) by ring,
          Int.toNat_natCast, posRange_append]
        congr 1
        omega
      · rw [batchLoop, dif_neg hlt, show r - w = 0 by omega]
        rfl

lemma remainingFor_pos (p : Int) (h : p < total) :
    1 ≤ remainingFor p ∧ p + ((remainingFor p : Nat) : Int) ≤ total := by
  simp only [remainingFor]
  split_ifs with h1
  · constructor <;> omega
  · have hE : (1 : Nat) ≤ entriesPerFile := by norm_num [entriesPerFile]
    exact ⟨hE, by omega⟩

lemma batchLoop_run (p : Int) (h : p < total) :
    batchLoop p (remainingFor p) 0 = posRange p (remainingFor p) := by
  obtain ⟨h1, h2⟩ := remainingFor_pos p h
  have := batchLoop_eq (remainingFor p) p (remainingFor p) 0 (by omega) (by omega)
    (by simpa using h2)
  simpa using this

lemma runFiles_nil (p : Int) (h : ¬ p < total) : runFiles p = [] := by
  rw [runFiles, dif_neg h]

lemma runFiles_unfold (p : Int) (h : p < total) :
    runFiles p = (fileForPos p, posRange p (remainingFor p))
      :: runFiles (p + ((remainingFor p : Nat) : Int)) := by
  obtain ⟨h1, _⟩ := remainingFor_pos p h
  rw [runFiles, dif_pos h, batchLoop_run p h,
    dif_pos (by rw [posRange_length]; omega), posRange_length]

lemma runFiles_flat (fuel : Nat) : ∀ p : Int, (total - p).toNat ≤ fuel →
    ((runFiles p).map Prod.snd).flatten = posRange p (total - p).toNat := by
  induction fuel with
  | zero =>
      intro p hf
      rw [runFiles_nil p (by omega), show (total - p).toNat = 0 by omega]
      rfl
  | succ fuel ih =>
      intro p hf
      by_cases h : p < total
      · obtain ⟨h1, h2⟩ := remainingFor_pos p h
        rw [runFiles_unfold p h]
        simp only [List.map_cons, List.flatten_cons]
        rw [ih (p + ((remainingFor p : Nat) : Int)) (by omega),
          show (total - (p + ((remainingFor p : Nat) : Int))).toNat
            = (total - p).toNat - remainingFor p by omega,
          posRange_append]
        congr 1
        omega
      · rw [runFiles_nil p h, show (total - p).toNat = 0 by omega]
        rfl

lemma runFiles_ne_nil (p : Int) (h : p < total) : runFiles p ≠ [] := by
  rw [runFiles_unfold p h]
  simp

lemma remainingFor_full (p : Int) (h2 : p + ((remainingFor p : Nat) : Int) < total) :
    remainingFor p = entriesPerFile := by
  by_contra hne'
  have hcond : total < p + (entriesPerFile : Int) := by
    by_contra hc
    exact hne' (by simp only [remainingFor, if_neg hc])
  have heq : remainingFor p = (total - p).toNat := by
    simp only [remainingFor, if_pos hcond]
  omega

lemma runFiles_dropLast (fuel : Nat) : ∀ p : Int, (total - p).toNat ≤ fuel →
    ((runFiles p).map fun f => f.2.length).dropLast
      = List.replicate ((runFiles p).length - 1) entriesPerFile := by
  induction fuel with
  | zero =>
      intro p hf
      rw [runFiles_nil p (by omega)]
      rfl
  | succ fuel ih =>
      intro p hf
      by_cases h : p < total
      · obtain ⟨h1, h2⟩ := remainingFor_pos p h
        rw [runFiles_unfold p h]
        by_cases hrest : p + ((remainingFor p : Nat) : Int) < total
        · have hrem := remainingFor_full p hrest
          have hne := runFiles_ne_nil _ hrest
          have hlen1 : 1 ≤ (runFiles (p + ((remainingFor p : Nat) : Int))).length := by
            cases hq : runFiles (p + ((remainingFor p : Nat) : Int)) with
            | nil => exact absurd hq hne
            | cons a l => simp
          simp only [List.map_cons]
          rw [List.dropLast_cons_of_ne_nil (by simpa using hne),
            ih _ (by omega), posRange_length, List.length_cons]
          rw [hrem] at hlen1 ⊢
          rw [show (runFiles (p + ((entriesPerFile : Nat) : Int))).length + 1 - 1
              = ((runFiles (p + ((entriesPerFile : Nat) : Int))).length - 1) + 1 by omega,
            List.replicate_succ]
        · rw [runFiles_nil _ hrest]
          rfl
      · rw [runFiles_nil p h]
        rfl

lemma fileForPos_step (p : Int) (h0 : 0 ≤ p) :
    fileForPos (p + (entriesPerFile : Int)) = fileForPos p + 1 := by
  obtain ⟨m, rfl⟩ := Int.eq_ofNat_of_zero_le h0
  simp only [fileForPos]
  rw [show ((m : Int) + (entriesPerFile : Int)) = ((m + entriesPerFile : Nat) : Int) by push_cast; ring,
    ← Int.ofNat_tdiv, ← Int.ofNat_tdiv,
    Nat.add_div_right m (by norm_num [entriesPerFile])]
  push_cast
  ring

lemma runFiles_nums (fuel : Nat) : ∀ p : Int, 0 ≤ p → (total - p).toNat ≤ fuel →
    (runFiles p).map Prod.fst
      = (List.range (runFiles p).length).map fun k : Nat => fileForPos p + (k : Int) := by
  induction fuel with
  | zero =>
      intro p h0 hf
      rw [runFiles_nil p (by omega)]
      rfl
  | succ fuel ih =>
      intro p h0 hf
      by_cases h : p < total
      · obtain ⟨h1, h2⟩ := remainingFor_pos p h
        rw [runFiles_unfold p h]
        simp only [List.map_cons, List.length_cons]
        rw [ih _ (by omega) (by omega), List.range_succ_eq_map, List.map_cons, List.map_map]
        by_cases hrest : p + ((remainingFor p : Nat) : Int) < total
        · have hrem := remainingFor_full p hrest
          congr 1
          · simp
          · apply List.map_congr_left
            intro k _
            simp only [Function.comp_apply]
            rw [hrem, fileForPos_step p h0]
            push_cast
            ring
        · rw [runFiles_nil _ hrest]
          simp
      · rw [runFiles_nil p h]
        rfl

/-- Claim C4: for a fresh uninterrupted run over the whole range, the
    concatenation of the output files in increasing numeric order is
    exactly the sequence getCombo 0, ..., getCombo (total-1), one entry per
    line, none duplicated and none skipped; every file except possibly the
    last holds exactly entriesPerFile lines, and file numbers are the
    consecutive integers from 1. -/
theorem C4_file_partition :
    ((runFiles 0).map Prod.snd).flatten = posRange 0 total.toNat
    ∧ (((runFiles 0).map Prod.snd).flatten).map getCombo
        = (posRange 0 total.toNat).map getCombo
    ∧ ((runFiles 0).map fun f => f.2.length).dropLast
        = List.replicate ((runFiles 0).length - 1) entriesPerFile
    ∧ (runFiles 0).map Prod.fst
        = (List.range (runFiles 0).length).map fun k : Nat => 1 + (k : Int) := by
  have h1 := runFiles_flat total.toNat 0 (by simp)
  have h2 := runFiles_dropLast total.toNat 0 (by simp)
  have h3 := runFiles_nums total.toNat 0 le_rfl (by simp)
  rw [sub_zero] at h1
  have hf0 : fileForPos 0 = 1 := by decide
  rw [hf0] at h3
  exact ⟨h1, by rw [h1], h2, h3⟩

lemma posRange_head (p : Int) (n : Nat) (h : 0 < n) : (posRange p n).head? = some p := by
  obtain ⟨m, rfl⟩ : ∃ m, n = m + 1 := ⟨n - 1, by omega⟩
  simp [posRange, List.range_succ_eq_map]

/-- Counterexample to claim C10 as stated: the persisted value v = 17043519
    lies in [0, total - 1] and v + 1 = 17043520 is not a multiple of
    entriesPerFile, yet the resumed run terminates immediately: it writes
    nothing and re-creates no file at all. -/
theorem C10_counterexample :
    (0 : Int) ≤ 17043519 ∧ (17043519 : Int) ≤ total - 1
    ∧ ¬ ((entriesPerFile : Int) ∣ (17043519 + 1))
    ∧ runFiles (17043519 + 1) = [] := by
  refine ⟨by norm_num, by rw [total_eq]; norm_num, ?_, ?_⟩
  · rw [show ((entriesPerFile : Nat) : Int) = 2000000 by norm_num [entriesPerFile]]
    omega
  · exact runFiles_nil _ (by rw [total_eq]; norm_num)

/-- Claim C10, amended only where the counterexample forces it: the claim
    holds for every persisted value v with v + 1 strictly below total
    (at v = total - 1 the resumed loop exits at once and creates no file).
    For such v with v + 1 not a multiple of entriesPerFile, the resumed run
    first re-creates (truncating) the file numbered
    tdiv(v+1, entriesPerFile) + 1 and fills it with min(entriesPerFile,
    total - (v+1)) entries starting at index v + 1, so its first line is
    getCombo (v+1) and not the string of the file's nominal first index
    (fileNum - 1) * entriesPerFile. -/
theorem C10_resume_unaligned (v : Int) (h0 : 0 ≤ v) (h1 : v + 1 < total)
    (h2 : ¬ ((entriesPerFile : Int) ∣ (v + 1))) :
    runFiles (v + 1)
      = ((v + 1).tdiv (entriesPerFile : Int) + 1,
          posRange (v + 1) (remainingFor (v + 1)))
        :: runFiles (v + 1 + ((remainingFor (v + 1) : Nat) : Int))
    ∧ ((remainingFor (v + 1) : Nat) : Int) = min (entriesPerFile : Int) (total - (v + 1))
    ∧ (posRange (v + 1) (remainingFor (v + 1))).head? = some (v + 1)
    ∧ ((posRange (v + 1) (remainingFor (v + 1))).map getCombo).head?
        = some (getCombo (v + 1))
    ∧ v + 1 ≠ ((v + 1).tdiv (entriesPerFile : Int) + 1 - 1) * (entriesPerFile : Int) := by
  obtain ⟨hr1, hr2⟩ := remainingFor_pos (v + 1) h1
  refine ⟨runFiles_unfold (v + 1) h1, ?_, posRange_head _ _ hr1, ?_, ?_⟩
  · simp only [remainingFor]
    split_ifs with hc
    · omega
    · omega
  · rw [List.head?_map, posRange_head _ _ hr1]
    rfl
  · intro heq
    have ht : v + 1 = (v + 1).tdiv (entriesPerFile : Int) * (entriesPerFile : Int) :=
      heq.trans (by ring)
    exact h2 ⟨(v + 1).tdiv (entriesPerFile : Int), ht.trans (mul_comm _ _)⟩

/-- Witness for the amended C10 at the concrete persisted value v = 0
    (cursor 0 persisted, resume at index 1, which is not file-aligned). -/
theorem C10_witness :
    runFiles ((0 : Int) + 1)
      = (((0 : Int) + 1).tdiv (entriesPerFile : Int) + 1,
          posRange ((0 : Int) + 1) (remainingFor ((0 : Int) + 1)))
        :: runFiles ((0 : Int) + 1 + ((remainingFor ((0 : Int) + 1) : Nat) : Int))
    ∧ ((remainingFor ((0 : Int) + 1) : Nat) : Int)
        = min (entriesPerFile : Int) (total - ((0 : Int) + 1))
    ∧ (posRange ((0 : Int) + 1) (remainingFor ((0 : Int) + 1))).head? = some ((0 : Int) + 1)
    ∧ ((posRange ((0 : Int) + 1) (remainingFor ((0 : Int) + 1))).map getCombo).head?
        = some (getCombo ((0 : Int) + 1))
    ∧ (0 : Int) + 1
        ≠ (((0 : Int) + 1).tdiv (entriesPerFile : Int) + 1 - 1) * (entriesPerFile : Int) :=
  C10_resume_unaligned 0 (by decide) (by decide) (by decide)

/-! Event-trace lemmas: where the persist and checkpoint events can sit. -/

lemma runTrace_done (p : Int) (fc : Nat) (h : ¬ p < total) :
    runTrace p fc = if fc % commitEvery ≠ 0 then [Ev.checkpoint fc] else [] := by
  rw [runTrace, dif_neg h]

lemma runTrace_unfold (p : Int) (fc : Nat) (h : p < total) :
    runTrace p fc
      = Ev.create (fileForPos p)
        :: ((posRange p (remainingFor p)).map Ev.writeLine
          ++ Ev.closeFile (fileForPos p)
          :: Ev.persist (p + ((remainingFor p : Nat) : Int) - 1)
          :: ((if (fc + 1) % commitEvery = 0 then [Ev.checkpoint (fc + 1)] else [])
            ++ runTrace (p + ((remainingFor p : Nat) : Int)) (fc + 1))) := by
  obtain ⟨h1, _⟩ := remainingFor_pos p h
  rw [runTrace, dif_pos h, batchLoop_run p h,
    dif_pos (by rw [posRange_length]; omega), posRange_length]

lemma split_free (q : Ev → Bool) (A B pre post : List Ev) (e : Ev)
    (hA : ∀ x ∈ A, q x = false) (he : q e = true)
    (h : A ++ B = pre ++ e :: post) :
    ∃ mid, pre = A ++ mid ∧ B = mid ++ e :: post := by
  rcases List.append_eq_append_iff.mp h with ⟨a', ha1, ha2⟩ | ⟨c', hc1, hc2⟩
  · exact ⟨a', ha1, ha2⟩
  · cases c' with
    | nil =>
        refine ⟨[], by simp [hc1], ?_⟩
        simpa using hc2.symm
    | cons x t =>
        exfalso
        have hx : x = e := by
          have := hc2
          simp only [List.cons_append] at this
          injection this with h1 _
          exact h1.symm
        have hmem : x ∈ A := by
          rw [hc1]
          simp
        have hqx : q x = false := hA x hmem
        rw [hx, he] at hqx
        cases hqx

lemma split_one (q : Ev → Bool) (A B pre post : List Ev) (a e : Ev)
    (hA : ∀ x ∈ A, q x = false) (h : A ++ a :: B = pre ++ e :: post)
    (he : q e = true) :
    (pre = A ∧ a = e ∧ B = post)
    ∨ ∃ mid, pre = A ++ a :: mid ∧ B = mid ++ e :: post := by
  obtain ⟨mid, h1, h2⟩ := split_free q A (a :: B) pre post e hA he h
  cases mid with
  | nil =>
      simp only [List.nil_append] at h2
      injection h2 with h2a h2b
      exact Or.inl ⟨by simpa using h1, h2a, h2b⟩
  | cons x t =>
      simp only [List.cons_append] at h2
      injection h2 with h2a h2b
      exact Or.inr ⟨t, by rw [h1, ← h2a], h2b⟩

lemma isPersist_front (fn : Int) (posns : List Int) :
    ∀ x ∈ Ev.create fn :: (posns.map Ev.writeLine ++ [Ev.closeFile fn]),
      isPersist x = false := by
  intro x hx
  rcases List.mem_cons.mp hx with rfl | hx'
  · rfl
  rcases List.mem_append.mp hx' with hw | hc
  · obtain ⟨pos, _, rfl⟩ := List.mem_map.mp hw
    rfl
  · rcases List.mem_cons.mp hc with rfl | hc0
    · rfl
    · simp at hc0

lemma ck_no_persist (fc : Nat) :
    ∀ x ∈ (if fc % commitEvery = 0 then [Ev.checkpoint fc] else []),
      isPersist x = false := by
  intro x hx
  split_ifs at hx
  · simp only [List.mem_singleton] at hx
    rw [hx]
    rfl
  · simp at hx

lemma posRange_snoc (p : Int) (m : Nat) :
    posRange p (m + 1) = posRange p m ++ [p + (m : Int)] := by
  simp [posRange, List.range_succ]

lemma getLast_front (fn : Int) (W : List Ev) :
    (Ev.create fn :: (W ++ [Ev.closeFile fn])).getLast? = some (Ev.closeFile fn) := by
  rw [show Ev.create fn :: (W ++ [Ev.closeFile fn])
      = (Ev.create fn :: W) ++ [Ev.closeFile fn] by simp]
  exact List.getLast?_concat _

lemma lastWrite_block (fn : Int) (xs : List Int) (x : Int) :
    lastWrite (Ev.create fn :: ((xs ++ [x]).map Ev.writeLine ++ [Ev.closeFile fn]))
      = some x := by
  have hrev : (Ev.create fn :: ((xs ++ [x]).map Ev.writeLine ++ [Ev.closeFile fn])).reverse
      = Ev.closeFile fn :: Ev.writeLine x :: ((xs.map Ev.writeLine).reverse ++ [Ev.create fn]) := by
    simp [List.map_append]
  rw [lastWrite, hrev]
  rfl

lemma runTrace_done_no_persist (p : Int) (fc : Nat) (hp : ¬ p < total)
    (pre post : List Ev) (v : Int) :
    runTrace p fc ≠ pre ++ Ev.persist v :: post := by
  rw [runTrace_done p fc hp]
  intro h
  have hmem : Ev.persist v ∈ pre ++ Ev.persist v :: post := by simp
  rw [← h] at hmem
  split_ifs at hmem <;> simp at hmem

lemma runTrace_persist_aux (fuel : Nat) : ∀ (p : Int) (fc : Nat) (pre post : List Ev) (v : Int),
    (total - p).toNat ≤ fuel →
    runTrace p fc = pre ++ Ev.persist v :: post →
    (∃ fn, pre.getLast? = some (Ev.closeFile fn)) ∧ lastWrite pre = some v := by
  induction fuel with
  | zero =>
      intro p fc pre post v hf h
      exact absurd h (runTrace_done_no_persist p fc (by omega) pre post v)
  | succ fuel ih =>
      intro p fc pre post v hf h
      by_cases hp : p < total
      · obtain ⟨h1, h2⟩ := remainingFor_pos p hp
        rw [runTrace_unfold p fc hp] at h
        rw [show Ev.create (fileForPos p)
            :: ((posRange p (remainingFor p)).map Ev.writeLine
              ++ Ev.closeFile (fileForPos p)
              :: Ev.persist (p + ((remainingFor p : Nat) : Int) - 1)
              :: ((if (fc + 1) % commitEvery = 0 then [Ev.checkpoint (fc + 1)] else [])
                ++ runTrace (p + ((remainingFor p : Nat) : Int)) (fc + 1)))
          = (Ev.create (fileForPos p)
              :: ((posRange p (remainingFor p)).map Ev.writeLine ++ [Ev.closeFile (fileForPos p)]))
            ++ Ev.persist (p + ((remainingFor p : Nat) : Int) - 1)
            :: ((if (fc + 1) % commitEvery = 0 then [Ev.checkpoint (fc + 1)] else [])
              ++ runTrace (p + ((remainingFor p : Nat) : Int)) (fc + 1)) by simp] at h
        rcases split_one isPersist _ _ pre post _ _ (isPersist_front _ _) h rfl with
          ⟨hpre, hwv, hpost⟩ | ⟨mid, hpre, hmid⟩
        · have hwv' : p + ((remainingFor p : Nat) : Int) - 1 = v := by
            injection hwv
          subst hpre
          constructor
          · exact ⟨fileForPos p, getLast_front _ _⟩
          · obtain ⟨m, hm⟩ : ∃ m, remainingFor p = m + 1 := ⟨remainingFor p - 1, by omega⟩
            rw [hm, posRange_snoc, lastWrite_block]
            rw [← hwv', hm]
            congr 1
            push_cast
            ring
        · obtain ⟨mid2, hmid2, hrest2⟩ := split_free isPersist _ _ mid post (Ev.persist v)
            (ck_no_persist (fc + 1)) rfl hmid
          obtain ⟨⟨fn, hlast⟩, hwrite⟩ :=
            ih (p + ((remainingFor p : Nat) : Int)) (fc + 1) mid2 post v (by omega) hrest2
          have hmid2_ne : mid2 ≠ [] := by
            intro hz
            rw [hz] at hlast
            simp at hlast
          constructor
          · refine ⟨fn, ?_⟩
            rw [hpre, hmid2,
              show (Ev.create (fileForPos p)
                  :: ((posRange p (remainingFor p)).map Ev.writeLine
                    ++ [Ev.closeFile (fileForPos p)]))
                ++ Ev.persist (p + ((remainingFor p : Nat) : Int) - 1)
                :: ((if (fc + 1) % commitEvery = 0 then [Ev.checkpoint (fc + 1)] else [])
                  ++ mid2)
              = ((Ev.create (fileForPos p)
                  :: ((posRange p (remainingFor p)).map Ev.writeLine
                    ++ [Ev.closeFile (fileForPos p)]))
                ++ Ev.persist (p + ((remainingFor p : Nat) : Int) - 1)
                :: (if (fc + 1) % commitEvery = 0 then [Ev.checkpoint (fc + 1)] else []))
                ++ mid2 by simp,
              List.getLast?_append, hlast]
            rfl
          · rw [hpre, hmid2,
              show (Ev.create (fileForPos p)
                  :: ((posRange p (remainingFor p)).map Ev.writeLine
                    ++ [Ev.closeFile (fileForPos p)]))
                ++ Ev.persist (p + ((remainingFor p : Nat) : Int) - 1)
                :: ((if (fc + 1) % commitEvery = 0 then [Ev.checkpoint (fc + 1)] else [])
                  ++ mid2)
              = ((Ev.create (fileForPos p)
                  :: ((posRange p (remainingFor p)).map Ev.writeLine
                    ++ [Ev.closeFile (fileForPos p)]))
                ++ Ev.persist (p + ((remainingFor p : Nat) : Int) - 1)
                :: (if (fc + 1) % commitEvery = 0 then [Ev.checkpoint (fc + 1)] else []))
                ++ mid2 by simp]
            simp only [lastWrite] at hwrite ⊢
            rw [List.reverse_append, List.findSome?_append, hwrite]
            rfl
      · exact absurd h (runTrace_done_no_persist p fc hp pre post v)

/-- Claim C7: in every run (any start cursor p and completed-file counter),
    whenever the durable state file is written with value v, the event
    immediately before is the close (after flush) of the current output
    file, and v is exactly the index of the last entry written
    (next index - 1): the cursor file is never overwritten before the file
    completes. -/
theorem C7_persist_after_close (p : Int) (fc : Nat) (pre post : List Ev) (v : Int)
    (h : runTrace p fc = pre ++ Ev.persist v :: post) :
    (∃ fn, pre.getLast? = some (Ev.closeFile fn)) ∧ lastWrite pre = some v :=
  runTrace_persist_aux (total - p).toNat p fc pre post v le_rfl h

/-- Witness for C7: the run started at cursor 17043519 (one entry left)
    writes one file; its single persist event carries 17043519, follows the
    close of file 9 immediately, and the last written index equals the
    persisted value. -/
theorem C7_witness :
    (∃ fn, ([Ev.create 9, Ev.writeLine 17043519, Ev.closeFile 9] : List Ev).getLast?
      = some (Ev.closeFile fn))
    ∧ lastWrite [Ev.create 9, Ev.writeLine 17043519, Ev.closeFile 9] = some 17043519 :=
  C7_persist_after_close 17043519 0 [Ev.create 9, Ev.writeLine 17043519, Ev.closeFile 9]
    [Ev.checkpoint 1] 17043519 (by
      have h19 : (17043519 : Int) < total := by rw [total_eq]; norm_num
      have hrem : remainingFor 17043519 = 1 := by
        simp only [remainingFor, total_eq, entriesPerFile]
        norm_num
      rw [runTrace_unfold _ 0 h19, hrem,
        runTrace_done (17043519 + ((1 : Nat) : Int)) (0 + 1)
          (by rw [total_eq]; push_cast; norm_num)]
      decide)

/-! Checkpoint scheduling. -/

lemma closedFiles_block (fn : Int) (posns : List Int) (w : Int) (T : List Ev) :
    closedFiles (Ev.create fn :: (posns.map Ev.writeLine
      ++ Ev.closeFile fn :: Ev.persist w :: T)) = 1 + closedFiles T := by
  have h0 : (posns.map Ev.writeLine).countP
      (fun e => match e with | Ev.closeFile _ => true | _ => false) = 0 := by
    induction posns with
    | nil => rfl
    | cons a t iht => simpa [List.countP_cons] using iht
  simp [closedFiles, List.countP_cons, List.countP_append, h0]
  try omega

lemma ckVals_block (fn : Int) (posns : List Int) (w : Int) (T : List Ev) :
    ckVals (Ev.create fn :: (posns.map Ev.writeLine
      ++ Ev.closeFile fn :: Ev.persist w :: T)) = ckVals T := by
  have h0 : (posns.map Ev.writeLine).filterMap
      (fun e => match e with | Ev.checkpoint k => some k | _ => none) = [] := by
    induction posns with
    | nil => rfl
    | cons a t iht => simpa [List.filterMap_cons] using iht
  simp [ckVals, List.filterMap_cons, List.filterMap_append, h0]

lemma closedFiles_ck (fc : Nat) (rest : List Ev) :
    closedFiles ((if fc % commitEvery = 0 then [Ev.checkpoint fc] else []) ++ rest)
      = closedFiles rest := by
  split_ifs <;> simp [closedFiles, List.countP_cons]

lemma ckVals_ck (fc : Nat) (rest : List Ev) :
    ckVals ((if fc % commitEvery = 0 then [Ev.checkpoint fc] else []) ++ rest)
      = (if fc % commitEvery = 0 then [fc] else []) ++ ckVals rest := by
  split_ifs <;> simp [ckVals, List.filterMap_cons]

lemma runTrace_ckVals_aux (fuel : Nat) : ∀ (p : Int) (fc : Nat),
    (total - p).toNat ≤ fuel →
    ckVals (runTrace p fc)
      = (List.range' (fc + 1) (closedFiles (runTrace p fc))).filter
          (fun k => k % commitEvery == 0)
        ++ (if (fc + closedFiles (runTrace p fc)) % commitEvery ≠ 0
            then [fc + closedFiles (runTrace p fc)] else []) := by
  induction fuel with
  | zero =>
      intro p fc hf
      rw [runTrace_done p fc (by omega)]
      split_ifs with h1 <;> simp_all [ckVals, closedFiles, List.countP_cons]
  | succ fuel ih =>
      intro p fc hf
      by_cases hp : p < total
      · obtain ⟨h1, h2⟩ := remainingFor_pos p hp
        rw [runTrace_unfold p fc hp, ckVals_block, closedFiles_block,
          ckVals_ck, closedFiles_ck,
          ih (p + ((remainingFor p : Nat) : Int)) (fc + 1) (by omega)]
        set L := closedFiles (runTrace (p + ((remainingFor p : Nat) : Int)) (fc + 1)) with hL
        rw [show 1 + L = L + 1 by omega,
          show fc + 1 + L = fc + (L + 1) by omega,
          List.range'_succ, List.filter_cons]
        by_cases hck : (fc + 1) % commitEvery = 0
        · simp [hck]
        · simp [hck]
      · rw [runTrace_done p fc hp]
        split_ifs with h1 <;> simp_all [ckVals, closedFiles, List.countP_cons]

lemma isCheckpoint_front (fn : Int) (posns : List Int) (w : Int) :
    ∀ x ∈ Ev.create fn :: (posns.map Ev.writeLine ++ [Ev.closeFile fn, Ev.persist w]),
      isCheckpoint x = false := by
  intro x hx
  rcases List.mem_cons.mp hx with rfl | hx'
  · rfl
  rcases List.mem_append.mp hx' with hw | hc
  · obtain ⟨pos, _, rfl⟩ := List.mem_map.mp hw
    rfl
  · rcases List.mem_cons.mp hc with rfl | hc0
    · rfl
    · rcases List.mem_cons.mp hc0 with rfl | hc1
      · rfl
      · simp at hc1

lemma getLast_front2 (fn w : Int) (W : List Ev) :
    (Ev.create fn :: (W ++ [Ev.closeFile fn, Ev.persist w])).getLast?
      = some (Ev.persist w) := by
  rw [show Ev.create fn :: (W ++ [Ev.closeFile fn, Ev.persist w])
      = (Ev.create fn :: (W ++ [Ev.closeFile fn])) ++ [Ev.persist w] by simp]
  exact List.getLast?_concat _

lemma trace_block_reshape (fn : Int) (W : List Ev) (w : Int) (T : List Ev) :
    Ev.create fn :: (W ++ Ev.closeFile fn :: Ev.persist w :: T)
      = (Ev.create fn :: (W ++ [Ev.closeFile fn, Ev.persist w])) ++ T := by
  simp

lemma runTrace_ckpos_aux (fuel : Nat) : ∀ (p : Int) (fc : Nat) (pre post : List Ev) (k : Nat),
    (total - p).toNat ≤ fuel →
    runTrace p fc = pre ++ Ev.checkpoint k :: post →
    (k % commitEvery = 0 ∧ ∃ v, pre.getLast? = some (Ev.persist v))
    ∨ (k % commitEvery ≠ 0 ∧ post = []) := by
  induction fuel with
  | zero =>
      intro p fc pre post k hf h
      rw [runTrace_done p fc (by omega)] at h
      split_ifs at h with h1
      · cases pre with
        | nil =>
            simp only [List.nil_append] at h
            injection h with ha hb
            injection ha with hk
            subst hk
            exact Or.inr ⟨h1, hb.symm⟩
        | cons a t =>
            simp only [List.cons_append] at h
            injection h with _ hb
            exact absurd hb.symm (by simp)
      · exact absurd h (by simp)
  | succ fuel ih =>
      intro p fc pre post k hf h
      by_cases hp : p < total
      · obtain ⟨h1, h2⟩ := remainingFor_pos p hp
        rw [runTrace_unfold p fc hp, trace_block_reshape] at h
        by_cases hck : (fc + 1) % commitEvery = 0
        · rw [if_pos hck, List.singleton_append] at h
          rcases split_one isCheckpoint _ _ pre post _ _
            (isCheckpoint_front _ _ _) h rfl with
            ⟨hpre, hkk, hpost⟩ | ⟨mid, hpre, hmid⟩
          · have hkk' : fc + 1 = k := by injection hkk
            subst hkk'
            subst hpre
            exact Or.inl ⟨hck, _, getLast_front2 _ _ _⟩
          · rcases ih _ (fc + 1) mid post k (by omega) hmid with
              ⟨hk0, v, hlast⟩ | ⟨hk0, hpost⟩
            · have hmid_ne : mid ≠ [] := by
                intro hz
                rw [hz] at hlast
                simp at hlast
              refine Or.inl ⟨hk0, v, ?_⟩
              rw [hpre, show (Ev.create (fileForPos p)
                  :: ((posRange p (remainingFor p)).map Ev.writeLine
                    ++ [Ev.closeFile (fileForPos p),
                      Ev.persist (p + ((remainingFor p : Nat) : Int) - 1)]))
                  ++ Ev.checkpoint (fc + 1) :: mid
                = ((Ev.create (fileForPos p)
                    :: ((posRange p (remainingFor p)).map Ev.writeLine
                      ++ [Ev.closeFile (fileForPos p),
                        Ev.persist (p + ((remainingFor p : Nat) : Int) - 1)]))
                  ++ [Ev.checkpoint (fc + 1)]) ++ mid by simp,
                List.getLast?_append, hlast]
              rfl
            · exact Or.inr ⟨hk0, hpost⟩
        · rw [if_neg hck, List.nil_append] at h
          obtain ⟨mid, hpre, hmid⟩ := split_free isCheckpoint _ _ pre post
            (Ev.checkpoint k) (isCheckpoint_front _ _ _) rfl h
          rcases ih _ (fc + 1) mid post k (by omega) hmid with
            ⟨hk0, v, hlast⟩ | ⟨hk0, hpost⟩
          · have hmid_ne : mid ≠ [] := by
              intro hz
              rw [hz] at hlast
              simp at hlast
            refine Or.inl ⟨hk0, v, ?_⟩
            rw [hpre, List.getLast?_append, hlast]
            rfl
          · exact Or.inr ⟨hk0, hpost⟩
      · rw [runTrace_done p fc hp] at h
        split_ifs at h with h1
        · cases pre with
          | nil =>
              simp only [List.nil_append] at h
              injection h with ha hb
              injection ha with hk
              subst hk
              exact Or.inr ⟨h1, hb.symm⟩
          | cons a t =>
              simp only [List.cons_append] at h
              injection h with _ hb
              exact absurd hb.symm (by simp)
        · exact absurd h (by simp)

/-- Claim C8: with the completed-file counter recomputed on startup as
    int(cursor / entriesPerFile), the commit action fires, in order,
    exactly at the counter values in (fc0, fc0 + files] that are multiples
    of commitEvery, plus exactly one final firing at the end-of-range
    counter when it is not a multiple; moreover every firing with a
    counter that is a multiple of commitEvery happens immediately after a
    FILE_COMPLETE state persist, and any other firing is the single final
    one at DONE (nothing follows it). -/
theorem C8_checkpoint_schedule (p : Int) :
    (ckVals (runTrace p (filesCompletedInit p))
      = (List.range' (filesCompletedInit p + 1)
          (closedFiles (runTrace p (filesCompletedInit p)))).filter
            (fun k => k % commitEvery == 0)
        ++ (if (filesCompletedInit p + closedFiles (runTrace p (filesCompletedInit p)))
              % commitEvery ≠ 0
            then [filesCompletedInit p
              + closedFiles (runTrace p (filesCompletedInit p))] else []))
    ∧ ∀ pre k post,
        runTrace p (filesCompletedInit p) = pre ++ Ev.checkpoint k :: post →
        (k % commitEvery = 0 ∧ ∃ v, pre.getLast? = some (Ev.persist v))
        ∨ (k % commitEvery ≠ 0 ∧ post = []) :=
  ⟨runTrace_ckVals_aux (total - p).toNat p (filesCompletedInit p) le_rfl,
    fun pre k post h =>
      runTrace_ckpos_aux (total - p).toNat p (filesCompletedInit p) pre post k le_rfl h⟩

/-- Witness for C8 at the concrete cursor 17043519: the checkpoint values
    of that run satisfy the schedule equation. -/
theorem C8_witness :
    ckVals (runTrace 17043519 (filesCompletedInit 17043519))
      = (List.range' (filesCompletedInit 17043519 + 1)
          (closedFiles (runTrace 17043519 (filesCompletedInit 17043519)))).filter
            (fun k => k % commitEvery == 0)
        ++ (if (filesCompletedInit 17043519
              + closedFiles (runTrace 17043519 (filesCompletedInit 17043519)))
              % commitEvery ≠ 0
            then [filesCompletedInit 17043519
              + closedFiles (runTrace 17043519 (filesCompletedInit 17043519))] else []) :=
  (C8_checkpoint_schedule 17043519).1

/-! Write failures: the source never inspects them. -/

lemma writeBatchE_step (fail : Int → Bool) (st : WriterState) (a : Int) (t : List Int) :
    writeBatchE fail st (a :: t) = writeBatchE fail (writeEntry fail st a).1 t := rfl

lemma writeBatchE_failed (fail : Int → Bool) : ∀ (poss : List Int) (st : WriterState),
    st.failed = true → writeBatchE fail st poss = st := by
  intro poss
  induction poss with
  | nil => intro st _; rfl
  | cons a t iht =>
      intro st h
      rw [writeBatchE_step, show (writeEntry fail st a).1 = st by simp [writeEntry, h]]
      exact iht st h

lemma runFilesE_nil (fail : Int → Bool) (p : Int) (h : ¬ p < total) :
    runFilesE fail p = [] := by
  rw [runFilesE, dif_neg h]

lemma runFilesE_unfold (fail : Int → Bool) (p : Int) (h : p < total) :
    runFilesE fail p
      = (fileForPos p,
          (writeBatchE fail ⟨[], false⟩ (posRange p (remainingFor p))).durable,
          posRange p (remainingFor p))
        :: runFilesE fail (p + ((remainingFor p : Nat) : Int)) := by
  obtain ⟨h1, _⟩ := remainingFor_pos p h
  rw [runFilesE, dif_pos h, batchLoop_run p h,
    dif_pos (by rw [posRange_length]; omega), posRange_length]

lemma runFilesE_shape (fuel : Nat) : ∀ (fail : Int → Bool) (p : Int),
    (total - p).toNat ≤ fuel →
    (runFilesE fail p).map (fun f => (f.1, f.2.2)) = runFiles p := by
  induction fuel with
  | zero =>
      intro fail p hf
      rw [runFilesE_nil _ _ (by omega), runFiles_nil _ (by omega)]
      rfl
  | succ fuel ih =>
      intro fail p hf
      by_cases h : p < total
      · obtain ⟨h1, h2⟩ := remainingFor_pos p h
        rw [runFilesE_unfold fail p h, runFiles_unfold p h]
        simp only [List.map_cons]
        rw [ih fail _ (by omega)]
      · rw [runFilesE_nil _ _ h, runFiles_nil _ h]
        rfl

lemma posRange_cons (p : Int) (m : Nat) : posRange p (m + 1) = p :: posRange (p + 1) m := by
  simp only [posRange, List.range_succ_eq_map, List.map_cons, List.map_map]
  refine congrArg₂ _ (by simp) ?_
  apply List.map_congr_left
  intro k _
  simp only [Function.comp_apply]
  push_cast [Nat.succ_eq_add_one]
  ring

/-- Claim C9 (the code contradicts its write-failure half at the failing
    input): the loop's control flow and attempted entries are identical for
    every write-failure oracle, because no result of WriteString or Flush
    is inspected (src/main.go lines 142, 177) - generation never stops on a
    failed write; concretely, when the write of entry 0 fails, file 1 is
    completed with zero durable lines while the loop still attempts all
    entriesPerFile entries and the run continues to completion.  (Failure
    of os.Create is indeed fatal via panic, src/main.go lines 120-123; the
    violated part is the claim that a failed write of a generated entry is
    never silently ignored.) -/
theorem C9_write_error_ignored :
    (∀ (fail : Int → Bool) (p : Int),
      (runFilesE fail p).map (fun f => (f.1, f.2.2)) = runFiles p)
    ∧ ((runFilesE (fun pos => pos == 0) 0).head?.map
        (fun f => (f.2.1, f.2.2.length))) = some ([], entriesPerFile) := by
  constructor
  · intro fail p
    exact runFilesE_shape (total - p).toNat fail p le_rfl
  · have h0 : (0 : Int) < total := by rw [total_eq]; norm_num
    rw [runFilesE_unfold _ 0 h0]
    have hrem : remainingFor 0 = entriesPerFile := by
      simp only [remainingFor]
      rw [if_neg (by rw [total_eq]; norm_num [entriesPerFile])]
    rw [hrem]
    obtain ⟨m, hm⟩ : ∃ m, entriesPerFile = m + 1 :=
      ⟨entriesPerFile - 1, by norm_num [entriesPerFile]⟩
    rw [hm, posRange_cons,
      writeBatchE_step,
      show (writeEntry (fun pos => pos == 0) ⟨[], false⟩ 0).1
        = (⟨[], true⟩ : WriterState) by rfl,
      writeBatchE_failed _ _ _ rfl]
    simp [posRange_length, hm]
